import Mathlib
set_option autoImplicit false
/-!
Verification of the Binance Telegram bot (`src/binance_bot.py`).
The development shallowly embeds the bot's pure logic:
* the alert store (`user_alerts`) is an insertion-ordered association list
  from chat identifiers (`Int`) to lists of alert records;
* prices and thresholds (Python floats) are modelled as rationals;
* pandas float series are modelled over `PVal` (`nan` / `inf` / finite),
  mirroring IEEE propagation in the operations the code uses;
* the persisted JSON file is modelled by a small `Json` inductive plus the
  outcome space of reading/parsing it (`PersistedContent`).
-/

/-! ## Definitions: the embedded program -/

/-- An alert record `{'symbol': ..., 'condition': ..., 'price': ...}`.
The condition is kept as the raw string the code stores (`'>'` or `'<'`). -/
structure Alert where
  symbol : String
  condition : String
  price : ℚ
deriving Repr, DecidableEq

/-- The in-memory alert store `user_alerts`: an insertion-ordered mapping
from chat id to that chat's list of alerts. -/
abbrev Store := List (Int × List Alert)

/-- The spec's example alert `{BTCUSDT, >, 65000}`. -/
def exampleAlert : Alert := ⟨"BTCUSDT", ">", 65000⟩

/-- A fetched-price table where BTCUSDT trades at 70000. -/
def examplePrices : String → Option ℚ :=
  fun s => if s = "BTCUSDT" then some 70000 else none

/-- The trigger test of `price_checker` (line 267):
`(cond == '>' and curr_price > target) or (cond == '<' and curr_price < target)`. -/
def triggered (currPrice : ℚ) (a : Alert) : Bool :=
  (a.condition == ">" && decide (currPrice > a.price)) ||
  (a.condition == "<" && decide (currPrice < a.price))

/-- The per-chat notification loop of `price_checker` (lines 259-275), with the
alert list enumerated from position `i`.  For each alert: if its symbol has no
fetched price the alert is skipped (`continue`); otherwise if the trigger test
passes and the notification send succeeds (`sendOk`), the alert's position is
queued for removal. -/
def collectTriggered (prices : String → Option ℚ) (sendOk : Nat → Bool) :
    Nat → List Alert → List Nat
  | _, [] => []
  | i, a :: rest =>
    let tail := collectTriggered prices sendOk (i + 1) rest
    match prices a.symbol with
    | none => tail
    | some p => if triggered p a && sendOk i then i :: tail else tail

/-- The removal loop of `price_checker` for one chat (lines 280-282), with the
live list equal to the snapshot: `list.pop(index)` for each index in turn.
`List.eraseIdx` is exactly Python's `pop` at a valid index. -/
def removeDescending (l : List Alert) (idxs : List Nat) : List Alert :=
  idxs.foldl List.eraseIdx l

/-- Declarative description from the spec: the list with the records at the
given 0-based positions deleted and all other records kept in their original
relative order. -/
def keepNotAtAux (idxs : List Nat) : Nat → List Alert → List Alert
  | _, [] => []
  | k, a :: rest =>
    if idxs.contains k then keepNotAtAux idxs (k + 1) rest
    else a :: keepNotAtAux idxs (k + 1) rest

/-- `keepNotAt l idxs`: delete the records of `l` at positions `idxs`. -/
def keepNotAt (l : List Alert) (idxs : List Nat) : List Alert :=
  keepNotAtAux idxs 0 l

/-- A JSON value, the result of `json.loads` on the persisted file. -/
inductive Json where
  | null
  | bool (b : Bool)
  | num (q : ℚ)
  | str (s : String)
  | arr (xs : List Json)
  | obj (fields : List (String × Json))
deriving Repr

/-- A decimal digit character. -/
def digitChar : Nat → Char
  | 0 => '0' | 1 => '1' | 2 => '2' | 3 => '3' | 4 => '4'
  | 5 => '5' | 6 => '6' | 7 => '7' | 8 => '8' | _ => '9'

/-- The decimal digits of a natural number, most significant first
(the digits `str(n)` prints for `n ≥ 0`). -/
def natToDigits (n : Nat) : List Char :=
  if _h : n < 10 then [digitChar n]
  else natToDigits (n / 10) ++ [digitChar (n % 10)]
decreasing_by exact Nat.div_lt_self (by omega) (by omega)

/-- Python `str` on an `int`: minus sign for negatives, then decimal digits.
This is the key form `json.dump` writes for an integer dictionary key. -/
def pyStr (i : Int) : String :=
  if i < 0 then ⟨'-' :: natToDigits (-i).toNat⟩ else ⟨natToDigits i.toNat⟩

/-- The characters `'0'`-`'9'`. -/
def isDigitChar (c : Char) : Bool := 48 ≤ c.toNat && c.toNat ≤ 57

/-- Numeric value of a digit character. -/
def digitVal (c : Char) : Nat := c.toNat - 48

/-- Whitespace stripped by Python `int(str)` before parsing. -/
def isPySpace (c : Char) : Bool :=
  c = ' ' || c = '\t' || c = '\n' || c = '\r' || c = '\x0b' || c = '\x0c'

/-- Digit-run parser after the first digit: digits, with `'_'` permitted only
between digits (the Python numeric-literal rule for `int(str)`). -/
def parseDigitsAux : Nat → List Char → Option Nat
  | acc, [] => some acc
  | acc, c :: cs =>
    if isDigitChar c then parseDigitsAux (acc * 10 + digitVal c) cs
    else if c = '_' then
      match cs with
      | [] => none
      | d :: cs' =>
        if isDigitChar d then parseDigitsAux (acc * 10 + digitVal d) cs' else none
    else none

/-- Parse a nonempty digit run (underscores between digits allowed). -/
def parseDigits : List Char → Option Nat
  | [] => none
  | c :: cs => if isDigitChar c then parseDigitsAux (digitVal c) cs else none

/-- Strip leading and trailing Python whitespace. -/
def stripPySpaces (cs : List Char) : List Char :=
  ((cs.dropWhile isPySpace).reverse.dropWhile isPySpace).reverse

/-- Optional sign followed by a digit run. -/
def pySignedDigits : List Char → Option Int
  | [] => none
  | c :: cs =>
    if c = '-' then (parseDigits cs).map (fun n => -(Int.ofNat n))
    else if c = '+' then (parseDigits cs).map Int.ofNat
    else (parseDigits (c :: cs)).map Int.ofNat

/-- Python `int(s)` on a string: strip whitespace, optional sign, digit run;
`none` models the `ValueError` raised on anything else. -/
def pyIntOfString (s : String) : Option Int :=
  pySignedDigits (stripPySpaces s.data)

/-- Uncaught Python exceptions `load_alerts_from_file` can raise past its
`except (FileNotFoundError, json.JSONDecodeError)` clause. -/
inductive PyError where
  | attributeError
  | valueError
deriving Repr, DecidableEq

/-- The possible outcomes of opening, reading and `json.loads`-ing the
persisted file (`open`/`json.loads` are library calls; this enumerates their
result space as seen by `load_alerts_from_file`):
missing file (`FileNotFoundError`), empty text (falsy `content`), nonempty
text that is not valid JSON (`json.JSONDecodeError`), or a parsed value. -/
inductive PersistedContent where
  | missing
  | emptyText
  | unparseable
  | parsed (j : Json)

/-- `load_alerts_from_file` (lines 38-48): on missing file, empty content or a
JSON parse error the store becomes `{}`; otherwise the dict comprehension
`{int(k): v for k, v in json.loads(content).items()}` runs: `.items()` on a
non-object raises `AttributeError`, and `int(k)` on a non-integer key raises
`ValueError` — neither is caught. -/
def load_alerts_from_file : PersistedContent → Except PyError (List (Int × Json))
  | .missing => .ok []
  | .emptyText => .ok []
  | .unparseable => .ok []
  | .parsed j =>
    match j with
    | .obj fields =>
      fields.mapM (fun kv =>
        match pyIntOfString kv.1 with
        | some i => .ok (i, kv.2)
        | none => .error PyError.valueError)
    | _ => .error PyError.attributeError

/-- The JSON object `json.dump` writes for one alert record. -/
def alertToJson (a : Alert) : Json :=
  Json.obj [("symbol", Json.str a.symbol), ("condition", Json.str a.condition),
            ("price", Json.num a.price)]

/-- `save_alerts_to_file` (lines 31-36): the JSON object written for the whole
store — integer keys become their `str` form, each alert list an array. -/
def save_alerts_to_file (s : Store) : Json :=
  Json.obj (s.map (fun p => (pyStr p.1, Json.arr (p.2.map alertToJson))))

/-- The in-memory store seen as untyped JSON-valued mapping (what the Python
dict holds: integer keys, list-of-dict values). -/
def storeValues (s : Store) : List (Int × Json) :=
  s.map (fun p => (p.1, Json.arr (p.2.map alertToJson)))

/-- `chat_id in user_alerts` / `user_alerts[chat_id]`: ordered-dict lookup. -/
def storeGet : Store → Int → Option (List Alert)
  | [], _ => none
  | p :: rest, c => if p.1 = c then some p.2 else storeGet rest c

/-- In-place update of an existing key (or insertion at the end of the dict
for a fresh one), preserving insertion order. -/
def storeSet : Store → Int → List Alert → Store
  | [], c, l => [(c, l)]
  | p :: rest, c, l => if p.1 = c then (c, l) :: rest else p :: storeSet rest c l

/-- In-memory store plus the persisted file (what `save_alerts_to_file`
last wrote). -/
structure BotState where
  alerts : Store
  file : Json

/-- `delete_alert` (lines 220-232): `idx = int(args[0]) - 1`; if
`chat_id in user_alerts and 0 <= idx < len(user_alerts[chat_id])`, pop the
record at `idx` and save; otherwise reply "invalid index" and change
nothing.  The Bool is `true` on successful deletion. -/
def delete_alert (st : BotState) (chat : Int) (userIdx : Int) : BotState × Bool :=
  let idx := userIdx - 1
  match storeGet st.alerts chat with
  | none => (st, false)
  | some l =>
    if 0 ≤ idx ∧ idx < (l.length : Int) then
      let newAlerts := storeSet st.alerts chat (l.eraseIdx idx.toNat)
      ({ alerts := newAlerts, file := save_alerts_to_file newAlerts }, true)
    else (st, false)

/-- Python `list.pop(i)`: the list without position `i`, or an `IndexError`
when `i` is out of range. -/
def popChecked (l : List Alert) (i : Nat) : Except Unit (List Alert) :=
  if i < l.length then .ok (l.eraseIdx i) else .error ()

/-- One queued removal in `price_checker`'s final phase (line 281-282), with
`pop` modelled fallibly: `if chat_id in user_alerts and index <
len(user_alerts[chat_id]): user_alerts[chat_id].pop(index)`. -/
def removeQueuedExc (s : Store) (chat : Int) (i : Nat) : Except Unit Store :=
  match storeGet s chat with
  | some l =>
    if i < l.length then (popChecked l i).map (storeSet s chat) else .ok s
  | none => .ok s

/-- The same step with `pop` total (only reachable at a valid index). -/
def removeQueued (s : Store) (chat : Int) (i : Nat) : Store :=
  match storeGet s chat with
  | some l => if i < l.length then storeSet s chat (l.eraseIdx i) else s
  | none => s

/-- Stable descending insertion: models `sorted(indices, reverse=True)`. -/
def insertDesc (i : Nat) : List Nat → List Nat
  | [] => [i]
  | j :: rest => if j < i then i :: j :: rest else j :: insertDesc i rest

/-- `sorted(indices, reverse=True)`. -/
def sortDesc : List Nat → List Nat
  | [] => []
  | i :: rest => insertDesc i (sortDesc rest)

/-- The inner loop of the removal phase for one chat, over already-sorted
indices, with fallible `pop`. -/
def runChatRemovalsExc (s : Store) (chat : Int) : List Nat → Except Unit Store
  | [] => .ok s
  | i :: rest => do
    let s' ← removeQueuedExc s chat i
    runChatRemovalsExc s' chat rest

/-- The inner loop with total steps. -/
def runChatRemovals (s : Store) (chat : Int) : List Nat → Store
  | [] => s
  | i :: rest => runChatRemovals (removeQueued s chat i) chat rest

/-- The whole removal phase (lines 277-282) applied to the live store `s`,
which may differ arbitrarily from the snapshot the indices were queued
against; fallible `pop`. -/
def runRemovalsExc (s : Store) : List (Int × List Nat) → Except Unit Store
  | [] => .ok s
  | (c, idxs) :: rest => do
    let s' ← runChatRemovalsExc s c (sortDesc idxs)
    runRemovalsExc s' rest

/-- The whole removal phase with total steps. -/
def runRemovals (s : Store) : List (Int × List Nat) → Store
  | [] => s
  | (c, idxs) :: rest => runRemovals (runChatRemovals s c (sortDesc idxs)) rest

/-- Python `.upper()` (character-wise, as it acts on ASCII symbol text). -/
def strUpper (s : String) : String := ⟨s.data.map Char.toUpper⟩

/-- `q` begins `s`. -/
def charsLeads : List Char → List Char → Bool
  | [], _ => true
  | _ :: _, [] => false
  | a :: q, b :: s => a == b && charsLeads q s

/-- Python's substring test `q in s`. -/
def charsWithin (q : List Char) : List Char → Bool
  | [] => charsLeads q []
  | c :: rest => charsLeads q (c :: rest) || charsWithin q rest

/-- One `InlineQueryResultArticle` as built by `inline_query`. -/
structure InlineResult where
  id : String
  title : String
  message : String
  description : String
deriving Repr, DecidableEq

/-- `inline_query` (lines 78-90): uppercase the query; if shorter than 2
characters return without answering (`none`); otherwise answer with the
first 20 cached symbols containing the query, each suggesting
`/chart SYMBOL 1d`. -/
def inline_query (cache : List String) (rawQuery : String) :
    Option (List InlineResult) :=
  let query := strUpper rawQuery
  if query.length < 2 then none
  else
    let results := cache.filter (fun s => charsWithin query.data s.data)
    some ((results.take 20).map (fun symbol =>
      ⟨symbol, symbol, "/chart " ++ symbol ++ " 1d", "Графік " ++ symbol⟩))

inductive PVal where
  | nan
  | inf
  | ninf
  | val (q : ℚ)
deriving Repr, DecidableEq

/-- IEEE negation. -/
def pneg : PVal → PVal
  | .nan => .nan
  | .inf => .ninf
  | .ninf => .inf
  | .val q => .val (-q)

/-- IEEE addition. -/
def padd : PVal → PVal → PVal
  | .nan, _ => .nan
  | _, .nan => .nan
  | .inf, .ninf => .nan
  | .ninf, .inf => .nan
  | .inf, _ => .inf
  | _, .inf => .inf
  | .ninf, _ => .ninf
  | _, .ninf => .ninf
  | .val a, .val b => .val (a + b)

/-- IEEE subtraction. -/
def psub (a b : PVal) : PVal := padd a (pneg b)

/-- IEEE division (zeros treated as +0, the only zero arising here). -/
def pdiv : PVal → PVal → PVal
  | .nan, _ => .nan
  | _, .nan => .nan
  | .inf, .inf => .nan
  | .inf, .ninf => .nan
  | .ninf, .inf => .nan
  | .ninf, .ninf => .nan
  | .inf, .val b => if b < 0 then .ninf else .inf
  | .ninf, .val b => if b < 0 then .inf else .ninf
  | .val _, .inf => .val 0
  | .val _, .ninf => .val 0
  | .val a, .val b =>
    if b = 0 then (if a = 0 then .nan else if 0 < a then .inf else .ninf)
    else .val (a / b)

/-- `x > 0` on a cell (NaN compares false). -/
def pvalPos : PVal → Bool
  | .val q => decide (0 < q)
  | .inf => true
  | _ => false

/-- `x < 0` on a cell (NaN compares false). -/
def pvalNeg : PVal → Bool
  | .val q => decide (q < 0)
  | .ninf => true
  | _ => false

/-- pandas `Series.diff()`: NaN in the first cell, adjacent differences
after. -/
def pdiff (xs : List ℚ) : List PVal :=
  match xs with
  | [] => []
  | _ :: t => PVal.nan :: List.zipWith (fun a b => PVal.val (b - a)) xs t

/-- pandas `.rolling(window=w).mean()` with the default `min_periods`:
NaN until the window is full, then the mean of the trailing `w` cells
(computed with IEEE propagation, so a NaN in the window gives NaN). -/
def rollingMean (w : Nat) (xs : List PVal) : List PVal :=
  (List.range xs.length).map (fun i =>
    if i + 1 < w then PVal.nan
    else pdiv (((xs.drop (i + 1 - w)).take w).foldl padd (PVal.val 0))
      (PVal.val w))

/-- `calculate_rsi` (lines 60-66): delta; gains (`delta.where(delta > 0, 0)`)
and losses (`(-delta.where(delta < 0, 0))`, negation applied to the whole
series); rolling means; `rs = gain / loss`; `rsi = 100 - 100 / (1 + rs)`. -/
def calculate_rsi (data : List ℚ) (length : Nat) : List PVal :=
  let delta := pdiff data
  let gain := rollingMean length
    (delta.map (fun d => if pvalPos d then d else PVal.val 0))
  let loss := rollingMean length
    ((delta.map (fun d => if pvalNeg d then d else PVal.val 0)).map pneg)
  let rs := List.zipWith pdiv gain loss
  rs.map (fun r => psub (PVal.val 100) (pdiv (PVal.val 100)
    (padd (PVal.val 1) r)))

/-- `days = min(max(days, 1), 200)` (line 102). -/
def clampDays (d : Int) : Nat := (min (max d 1) 200).toNat

/-- `df.tail(days)`: the last `days` rows. -/
def tailRows (days : Nat) (xs : List PVal) : List PVal :=
  xs.drop (xs.length - days)

/-- The indicator columns of `get_chart`'s `df_to_plot` (lines 129-133):
indicators over the full fetched history, then trimmed to the displayed
window. -/
structure ChartData where
  sma20 : List PVal
  sma50 : List PVal
  rsi14 : List PVal

/-- The indicator/trim portion of `get_chart` (lines 101-133) on the closes
of the fetched candles. -/
def get_chart (closes : List ℚ) (daysArg : Int) : ChartData :=
  let days := clampDays daysArg
  { sma20 := tailRows days (rollingMean 20 (closes.map PVal.val))
    sma50 := tailRows days (rollingMean 50 (closes.map PVal.val))
    rsi14 := tailRows days (calculate_rsi closes 14) }

/-- The RSI cell value at a complete window, as a function of the two
rolling means. -/
def rsiOf (ga lb : ℚ) : PVal :=
  psub (PVal.val 100) (pdiv (PVal.val 100)
    (padd (PVal.val 1) (pdiv (PVal.val ga) (PVal.val lb))))

/-- Strictly increasing 14-candle history. -/
def incCloses : List ℚ := [1, 2, 3, 4, 5, 6, 7, 8, 9, 10, 11, 12, 13, 14]

/-- Strictly decreasing 14-candle history. -/
def decCloses : List ℚ := [14, 13, 12, 11, 10, 9, 8, 7, 6, 5, 4, 3, 2, 1]

/-- 51 candles of constant price 1 — enough history for a 1-day window. -/
def flatCloses : List ℚ := List.replicate 51 1

/-! ## Theorems -/

lemma keepNotAtAux_all_lt (rest : List Nat) :
    ∀ (l : List Alert) (k : Nat), (∀ j ∈ rest, j < k) →
      keepNotAtAux rest k l = l := by
  intro l
  induction l with
  | nil => intro k _; rfl
  | cons a t ih =>
    intro k hk
    have hnot : k ∉ rest := fun hc => absurd (hk k hc) (lt_irrefl k)
    have ht : ∀ j ∈ rest, j < k + 1 := fun j hj =>
      Nat.lt_succ_of_lt (hk j hj)
    simp [keepNotAtAux, List.contains, hnot, ih (k + 1) ht]

lemma keepNotAtAux_erase (i : Nat) (rest : List Nat)
    (hrest : ∀ j ∈ rest, j < i) :
    ∀ (l : List Alert) (k : Nat), k ≤ i → i - k < l.length →
      keepNotAtAux rest k (l.eraseIdx (i - k)) =
      keepNotAtAux (i :: rest) k l := by
  intro l
  induction l with
  | nil => intro k _ h; simp at h
  | cons a t ih =>
    intro k hk hlen
    rcases Nat.eq_or_lt_of_le hk with heq | hlt
    · subst heq
      simp only [Nat.sub_self, List.eraseIdx]
      have h1 : ∀ j ∈ rest, j < k := hrest
      have h2 : ∀ j ∈ (k :: rest), j < k + 1 := by
        intro j hj
        rcases List.mem_cons.mp hj with h | h
        · omega
        · exact Nat.lt_succ_of_lt (h1 j h)
      rw [keepNotAtAux_all_lt rest t k h1]
      simp [keepNotAtAux, List.contains,
        keepNotAtAux_all_lt (k :: rest) t (k + 1) h2]
    · have hik : i - k = (i - (k + 1)) + 1 := by omega
      rw [hik]
      simp only [List.eraseIdx]
      have hki : k ≠ i := by omega
      have hlen' : i - (k + 1) < t.length := by
        simp only [List.length_cons] at hlen; omega
      have hrec := ih (k + 1) (by omega) hlen'
      by_cases hck : k ∈ rest
      · simp [keepNotAtAux, List.contains, hck, hki, hrec]
      · simp [keepNotAtAux, List.contains, hck, hki, hrec]

lemma removeDescending_eq_keepNotAt :
    ∀ (idxs : List Nat) (l : List Alert), idxs.Pairwise (· > ·) →
      (∀ i ∈ idxs, i < l.length) →
      removeDescending l idxs = keepNotAt l idxs := by
  intro idxs
  induction idxs with
  | nil =>
    intro l _ _
    have h0 : ∀ j ∈ ([] : List Nat), j < 0 := by simp
    simp [removeDescending, keepNotAt, keepNotAtAux_all_lt [] l 0 h0]
  | cons i rest ih =>
    intro l hpair hbound
    have hrest : ∀ j ∈ rest, j < i := by
      intro j hj
      exact (List.pairwise_cons.mp hpair).1 j hj
    have hi : i < l.length := hbound i (List.mem_cons_self i rest)
    have hlen : (l.eraseIdx i).length = l.length - 1 := by
      simp [List.length_eraseIdx, hi]
    have hbound' : ∀ j ∈ rest, j < (l.eraseIdx i).length := by
      intro j hj
      rw [hlen]
      have := hrest j hj
      omega
    have hstep : removeDescending l (i :: rest) =
        removeDescending (l.eraseIdx i) rest := rfl
    rw [hstep, ih (l.eraseIdx i) (List.pairwise_cons.mp hpair).2 hbound']
    unfold keepNotAt
    have := keepNotAtAux_erase i rest hrest l 0 (Nat.zero_le i) (by simpa using hi)
    simpa using this

lemma digitChar_spec : ∀ m, m < 10 →
    isDigitChar (digitChar m) = true ∧ digitVal (digitChar m) = m := by
  decide

lemma natToDigits_all_digits (n : Nat) :
    ∀ c ∈ natToDigits n, isDigitChar c = true := by
  induction n using Nat.strong_induction_on with
  | _ n ih =>
    rw [natToDigits]
    by_cases h : n < 10
    · simp only [dif_pos h]
      intro c hc
      rcases List.mem_singleton.mp hc with rfl
      exact (digitChar_spec n h).1
    · simp only [dif_neg h]
      intro c hc
      rcases List.mem_append.mp hc with hc | hc
      · exact ih (n / 10) (Nat.div_lt_self (by omega) (by omega)) c hc
      · rcases List.mem_singleton.mp hc with rfl
        exact (digitChar_spec (n % 10) (Nat.mod_lt n (by omega))).1

lemma parseDigitsAux_all_digits (ds : List Char) :
    ∀ acc, (∀ c ∈ ds, isDigitChar c = true) →
      parseDigitsAux acc ds =
        some (ds.foldl (fun a c => a * 10 + digitVal c) acc) := by
  induction ds with
  | nil => intro acc _; rfl
  | cons c cs ih =>
    intro acc hall
    have hc : isDigitChar c = true := hall c (List.mem_cons_self c cs)
    have hcs : ∀ d ∈ cs, isDigitChar d = true := fun d hd =>
      hall d (List.mem_cons_of_mem c hd)
    rw [parseDigitsAux.eq_def]
    simp only [hc, if_true, List.foldl_cons]
    exact ih (acc * 10 + digitVal c) hcs

lemma foldl_natToDigits (n : Nat) :
    (natToDigits n).foldl (fun a c => a * 10 + digitVal c) 0 = n := by
  induction n using Nat.strong_induction_on with
  | _ n ih =>
    rw [natToDigits]
    by_cases h : n < 10
    · simp [dif_pos h, (digitChar_spec n h).2]
    · simp only [dif_neg h, List.foldl_append, List.foldl_cons, List.foldl_nil]
      rw [ih (n / 10) (Nat.div_lt_self (by omega) (by omega))]
      rw [(digitChar_spec (n % 10) (Nat.mod_lt n (by omega))).2]
      omega

lemma natToDigits_ne_nil (n : Nat) : natToDigits n ≠ [] := by
  rw [natToDigits]
  by_cases h : n < 10
  · simp [dif_pos h]
  · simp only [dif_neg h]
    exact fun hc => by simpa using congrArg List.length hc

lemma parseDigits_natToDigits (n : Nat) :
    parseDigits (natToDigits n) = some n := by
  cases hds : natToDigits n with
  | nil => exact absurd hds (natToDigits_ne_nil n)
  | cons c cs =>
    have hall : ∀ d ∈ natToDigits n, isDigitChar d = true :=
      natToDigits_all_digits n
    rw [hds] at hall
    have hc : isDigitChar c = true := hall c (List.mem_cons_self c cs)
    have hcs : ∀ d ∈ cs, isDigitChar d = true := fun d hd =>
      hall d (List.mem_cons_of_mem c hd)
    have hfold := foldl_natToDigits n
    rw [hds] at hfold
    simp only [List.foldl_cons, Nat.zero_mul, Nat.zero_add] at hfold
    simp only [parseDigits, if_pos hc, parseDigitsAux_all_digits cs _ hcs]
    exact congrArg some hfold

lemma stripPySpaces_of_no_space (cs : List Char)
    (h : ∀ c ∈ cs, isPySpace c = false) : stripPySpaces cs = cs := by
  have h1 : cs.dropWhile isPySpace = cs := by
    cases cs with
    | nil => rfl
    | cons c cs' => simp [List.dropWhile_cons, h c (List.mem_cons_self c cs')]
  have h2 : cs.reverse.dropWhile isPySpace = cs.reverse := by
    cases hr : cs.reverse with
    | nil => rfl
    | cons c cs' =>
      have : c ∈ cs := by
        rw [← List.mem_reverse, hr]; exact List.mem_cons_self c cs'
      simp [List.dropWhile_cons, h c this]
  simp [stripPySpaces, h1, h2]

lemma digit_not_space (c : Char) (h : isDigitChar c = true) :
    isPySpace c = false := by
  by_contra hsp
  have hsp' : isPySpace c = true := by
    cases hb : isPySpace c
    · exact absurd hb hsp
    · rfl
  simp only [isPySpace, Bool.or_eq_true, decide_eq_true_iff] at hsp'
  rcases hsp' with ((((h' | h') | h') | h') | h') | h' <;>
    (subst h'; exact absurd h (by decide))

lemma pyIntOfString_pyStr (i : Int) : pyIntOfString (pyStr i) = some i := by
  by_cases hneg : i < 0
  · have hdata : (pyStr i).data = '-' :: natToDigits (-i).toNat := by
      simp [pyStr, if_pos hneg]
    have hall : ∀ c ∈ ('-' :: natToDigits (-i).toNat), isPySpace c = false := by
      intro c hc
      rcases List.mem_cons.mp hc with rfl | hc
      · decide
      · exact digit_not_space c (natToDigits_all_digits _ c hc)
    have hstrip := stripPySpaces_of_no_space _ hall
    unfold pyIntOfString
    rw [hdata, hstrip, pySignedDigits.eq_def]
    simp only [parseDigits_natToDigits]
    rw [if_pos trivial]
    have hmap : Option.map (fun n => -(Int.ofNat n)) (some ((-i).toNat)) =
        some (-(Int.ofNat ((-i).toNat))) := rfl
    rw [hmap]
    congr 1
    rw [Int.ofNat_eq_coe]
    omega
  · have hdata : (pyStr i).data = natToDigits i.toNat := by
      simp [pyStr, if_neg hneg]
    have hall : ∀ c ∈ natToDigits i.toNat, isPySpace c = false := fun c hc =>
      digit_not_space c (natToDigits_all_digits _ c hc)
    have hstrip := stripPySpaces_of_no_space _ hall
    cases hds : natToDigits i.toNat with
    | nil => exact absurd hds (natToDigits_ne_nil _)
    | cons c cs =>
      rw [hds] at hstrip
      have hc : isDigitChar c = true := by
        have hd := natToDigits_all_digits i.toNat
        rw [hds] at hd
        exact hd c (List.mem_cons_self c cs)
      have hcm : c ≠ '-' := by
        intro hc'
        subst hc'
        exact absurd hc (by decide)
      have hcp : c ≠ '+' := by
        intro hc'
        subst hc'
        exact absurd hc (by decide)
      have hparse := parseDigits_natToDigits i.toNat
      rw [hds] at hparse
      unfold pyIntOfString
      rw [hdata, hds, hstrip, pySignedDigits.eq_def]
      simp only [hparse]
      rw [if_neg hcm, if_neg hcp]
      have hmap : Option.map Int.ofNat (some i.toNat) =
          some (Int.ofNat i.toNat) := rfl
      rw [hmap]
      congr 1
      rw [Int.ofNat_eq_coe]
      omega

/-- C3: serializing any alert store with `save_alerts_to_file` (string keys)
and deserializing with `load_alerts_from_file` (keys converted back with
`int`) succeeds and yields the original mapping. -/
theorem save_load_round_trip (s : Store) :
    load_alerts_from_file (.parsed (save_alerts_to_file s)) =
      .ok (storeValues s) := by
  simp only [load_alerts_from_file, save_alerts_to_file, storeValues]
  induction s with
  | nil => rfl
  | cons p rest ih =>
    simp only [List.map_cons, List.mapM_cons, pyIntOfString_pyStr] at ih ⊢
    rw [ih]
    rfl

/-- Counterexample to C4: a file whose content is the valid JSON text `[]`
(an array, not an object) makes `load_alerts_from_file` raise an uncaught
`AttributeError` from `.items()`, rather than initializing the store. -/
theorem load_raises_on_json_array :
    load_alerts_from_file (.parsed (Json.arr [])) =
      .error PyError.attributeError := rfl

/-- C4 (amended): on a missing file, empty content, or content that is not
valid JSON, `load_alerts_from_file` raises nothing and initializes the store
to the empty mapping; content that parses to a non-object (or to an object
with a key `int` rejects) instead raises an uncaught error. -/
theorem load_safe_on_missing_empty_invalid :
    load_alerts_from_file .missing = .ok [] ∧
    load_alerts_from_file .emptyText = .ok [] ∧
    load_alerts_from_file .unparseable = .ok [] ∧
    load_alerts_from_file (.parsed (Json.null)) =
      .error PyError.attributeError ∧
    load_alerts_from_file (.parsed (Json.obj [("abc", Json.null)])) =
      .error PyError.valueError := by
  refine ⟨rfl, rfl, rfl, rfl, ?_⟩
  rfl

lemma removeQueuedExc_ok (s : Store) (chat : Int) (i : Nat) :
    removeQueuedExc s chat i = .ok (removeQueued s chat i) := by
  unfold removeQueuedExc removeQueued
  cases storeGet s chat with
  | none => rfl
  | some l =>
    by_cases h : i < l.length
    · simp only [if_pos h, popChecked]
      rfl
    · simp [if_neg h]

lemma runChatRemovalsExc_ok (chat : Int) :
    ∀ (idxs : List Nat) (s : Store),
      runChatRemovalsExc s chat idxs = .ok (runChatRemovals s chat idxs) := by
  intro idxs
  induction idxs with
  | nil => intro s; rfl
  | cons i rest ih =>
    intro s
    simp only [runChatRemovalsExc, runChatRemovals]
    rw [removeQueuedExc_ok]
    exact ih (removeQueued s chat i)

/-- C10: the checker's final removal phase never attempts an out-of-range
`pop`, whatever live store it runs against and whatever positions were
queued: the fallible model always returns `ok`, agreeing with the total
one. -/
theorem checker_removal_never_out_of_range :
    ∀ (queued : List (Int × List Nat)) (s : Store),
      runRemovalsExc s queued = .ok (runRemovals s queued) := by
  intro queued
  induction queued with
  | nil => intro s; rfl
  | cons p rest ih =>
    intro s
    obtain ⟨c, idxs⟩ := p
    simp only [runRemovalsExc, runRemovals]
    rw [runChatRemovalsExc_ok]
    exact ih (runChatRemovals s c (sortDesc idxs))

/-- C5: `delete_alert` succeeds exactly when the 1-based index is within
`[1, length]` of the chat's (possibly missing, hence empty) alert list; on
failure the state — store and file — is untouched; on success exactly the
record at that position is deleted and the new store is persisted
immediately. -/
theorem delete_alert_spec (st : BotState) (chat userIdx : Int) :
    ((delete_alert st chat userIdx).2 = true ↔
      1 ≤ userIdx ∧ userIdx ≤ (((storeGet st.alerts chat).getD []).length : Int)) ∧
    ((delete_alert st chat userIdx).2 = false →
      (delete_alert st chat userIdx).1 = st) ∧
    ((delete_alert st chat userIdx).2 = true →
      ∃ l, storeGet st.alerts chat = some l ∧
        (delete_alert st chat userIdx).1.alerts =
          storeSet st.alerts chat
            (l.take (userIdx - 1).toNat ++ l.drop ((userIdx - 1).toNat + 1)) ∧
        (delete_alert st chat userIdx).1.file =
          save_alerts_to_file (delete_alert st chat userIdx).1.alerts) := by
  cases hsg : storeGet st.alerts chat with
  | none =>
    have hda : delete_alert st chat userIdx = (st, false) := by
      simp [delete_alert, hsg]
    rw [hda]
    refine ⟨?_, fun _ => rfl, fun hc => absurd hc (by simp)⟩
    constructor
    · intro hc; exact absurd hc (by simp)
    · rintro ⟨h1, h2⟩
      simp only [Option.getD_none, List.length_nil, Nat.cast_zero] at h2
      exact absurd (by omega : ¬(1 : Int) ≤ userIdx) (by simpa using h1)
  | some l =>
    by_cases hcond : 0 ≤ userIdx - 1 ∧ userIdx - 1 < (l.length : Int)
    · have hda : delete_alert st chat userIdx =
          ({ alerts := storeSet st.alerts chat
               (l.eraseIdx (userIdx - 1).toNat),
             file := save_alerts_to_file (storeSet st.alerts chat
               (l.eraseIdx (userIdx - 1).toNat)) }, true) := by
        simp [delete_alert, hsg, hcond]
      rw [hda]
      refine ⟨⟨fun _ => ?_, fun _ => rfl⟩, fun hc => absurd hc (by simp),
        fun _ => ⟨l, rfl, ?_, rfl⟩⟩
      · simp only [Option.getD_some]
        omega
      · simp only [List.eraseIdx_eq_take_drop_succ]
    · have hda : delete_alert st chat userIdx = (st, false) := by
        simp only [delete_alert, hsg]
        rw [if_neg hcond]
      rw [hda]
      refine ⟨⟨fun hc => absurd hc (by simp), ?_⟩, fun _ => rfl,
        fun hc => absurd hc (by simp)⟩
      rintro ⟨h1, h2⟩
      simp only [Option.getD_some] at h2
      exact absurd ⟨by omega, by omega⟩ hcond

/-- Witness for C5: `/delete_alert 1` on a single-alert chat empties that
chat's list and persists the empty store. -/
theorem delete_alert_spec_witness :
    (delete_alert ⟨[(7, [exampleAlert])], Json.null⟩ 7 1).2 = true := by
  have hyp : (1 : Int) ≤ 1 ∧ (1 : Int) ≤
      (((storeGet ([(7, [exampleAlert])] : Store) 7).getD []).length : Int) := by
    decide
  exact (delete_alert_spec ⟨[(7, [exampleAlert])], Json.null⟩ 7 1).1.mpr hyp

lemma charsLeads_decomp :
    ∀ (q s : List Char), charsLeads q s = true → ∃ t, s = q ++ t := by
  intro q
  induction q with
  | nil => intro s _; exact ⟨s, rfl⟩
  | cons a q' ih =>
    intro s h
    cases s with
    | nil => simp [charsLeads] at h
    | cons b s' =>
      simp only [charsLeads, Bool.and_eq_true, beq_iff_eq] at h
      obtain ⟨t, ht⟩ := ih s' h.2
      exact ⟨t, by simp [h.1, ht]⟩

lemma charsWithin_decomp :
    ∀ (s q : List Char), charsWithin q s = true →
      ∃ pre post, s = pre ++ q ++ post := by
  intro s
  induction s with
  | nil =>
    intro q h
    obtain ⟨t, ht⟩ := charsLeads_decomp q [] h
    rcases List.append_eq_nil.mp ht.symm with ⟨hq, htn⟩
    exact ⟨[], [], by simp [hq]⟩
  | cons c rest ih =>
    intro q h
    simp only [charsWithin, Bool.or_eq_true] at h
    rcases h with h | h
    · obtain ⟨t, ht⟩ := charsLeads_decomp q (c :: rest) h
      exact ⟨[], t, by simp [ht]⟩
    · obtain ⟨pre, post, hp⟩ := ih q h
      exact ⟨c :: pre, post, by simp [hp]⟩

/-- C8: every answered inline-query result list has at most 20 entries; each
entry's symbol is from the cache and contains the uppercased query as a
substring, and its suggested message is exactly `/chart SYMBOL 1d`. -/
theorem inline_query_results_spec (cache : List String) (q : String)
    (res : List InlineResult) (h : inline_query cache q = some res) :
    res.length ≤ 20 ∧
    ∀ r ∈ res, r.title ∈ cache ∧
      (∃ pre post, r.title.data = pre ++ (strUpper q).data ++ post) ∧
      r.message = "/chart " ++ r.title ++ " 1d" := by
  unfold inline_query at h
  by_cases hlen : (strUpper q).length < 2
  · rw [if_pos hlen] at h; exact absurd h (by simp)
  · rw [if_neg hlen] at h
    have hres : res =
        ((cache.filter (fun s => charsWithin (strUpper q).data s.data)).take
            20).map (fun symbol =>
          ⟨symbol, symbol, "/chart " ++ symbol ++ " 1d", "Графік " ++ symbol⟩) :=
      (Option.some_inj.mp h).symm
    constructor
    · rw [hres, List.length_map]
      exact List.length_take_le 20 _
    · intro r hr
      rw [hres] at hr
      obtain ⟨symbol, hsym, hrdef⟩ := List.mem_map.mp hr
      have hmem : symbol ∈
          cache.filter (fun s => charsWithin (strUpper q).data s.data) :=
        List.mem_of_mem_take hsym
      have hcache : symbol ∈ cache := List.mem_of_mem_filter hmem
      have hpred : charsWithin (strUpper q).data symbol.data = true := by
        simpa using List.of_mem_filter hmem
      obtain ⟨pre, post, hdec⟩ := charsWithin_decomp symbol.data _ hpred
      subst hrdef
      exact ⟨hcache, ⟨pre, post, hdec⟩, rfl⟩

/-- Witness for C8: query "bt" against a two-symbol cache answers exactly the
matching symbol with its canned `/chart` suggestion. -/
theorem inline_query_results_spec_witness :
    ([⟨"BTCUSDT", "BTCUSDT", "/chart BTCUSDT 1d", "Графік BTCUSDT"⟩] :
        List InlineResult).length ≤ 20 ∧
    ∀ r ∈ ([⟨"BTCUSDT", "BTCUSDT", "/chart BTCUSDT 1d", "Графік BTCUSDT"⟩] :
        List InlineResult),
      r.title ∈ ["BTCUSDT", "ETHUSDT"] ∧
      (∃ pre post, r.title.data = pre ++ (strUpper "bt").data ++ post) ∧
      r.message = "/chart " ++ r.title ++ " 1d" :=
  inline_query_results_spec ["BTCUSDT", "ETHUSDT"] "bt" _ rfl

/-- C9: a query whose uppercased form is shorter than 2 characters is never
answered, whatever the cache holds. -/
theorem inline_query_short_query_no_answer (cache : List String) (q : String)
    (h : (strUpper q).length < 2) : inline_query cache q = none := by
  simp [inline_query, h]

/-- Witness for C9 at the one-character query "b". -/
theorem inline_query_short_query_no_answer_witness :
    inline_query ["BTCUSDT"] "b" = none :=
  inline_query_short_query_no_answer ["BTCUSDT"] "b" (by decide)

lemma length_pdiff (xs : List ℚ) : (pdiff xs).length = xs.length := by
  cases xs with
  | nil => rfl
  | cons x t => simp [pdiff, List.length_zipWith]

lemma length_rollingMean (w : Nat) (xs : List PVal) :
    (rollingMean w xs).length = xs.length := by
  simp [rollingMean]

lemma length_calculate_rsi (xs : List ℚ) (w : Nat) :
    (calculate_rsi xs w).length = xs.length := by
  simp [calculate_rsi, List.length_zipWith, length_rollingMean, length_pdiff]

lemma rollingMean_getElem (w : Nat) (xs : List PVal) (i : Nat)
    (h : i < xs.length) :
    (rollingMean w xs)[i]? = some (if i + 1 < w then PVal.nan
      else pdiv (((xs.drop (i + 1 - w)).take w).foldl padd (PVal.val 0))
        (PVal.val w)) := by
  simp [rollingMean, List.getElem?_range h]

lemma foldl_padd_allval :
    ∀ (l : List PVal), (∀ x ∈ l, ∃ q, x = PVal.val q) →
      ∀ a : ℚ, ∃ s : ℚ, l.foldl padd (PVal.val a) = PVal.val s := by
  intro l
  induction l with
  | nil => intro _ a; exact ⟨a, rfl⟩
  | cons x t ih =>
    intro hall a
    obtain ⟨q, hq⟩ := hall x (List.mem_cons_self x t)
    have ht : ∀ y ∈ t, ∃ q, y = PVal.val q := fun y hy =>
      hall y (List.mem_cons_of_mem x hy)
    obtain ⟨s, hs⟩ := ih ht (a + q)
    exact ⟨s, by simpa [hq, padd] using hs⟩

lemma foldl_padd_nonneg :
    ∀ (l : List PVal), (∀ x ∈ l, ∃ q, x = PVal.val q ∧ 0 ≤ q) →
      ∀ a : ℚ, 0 ≤ a →
      ∃ s : ℚ, l.foldl padd (PVal.val a) = PVal.val s ∧ a ≤ s ∧
        (s ≤ a → ∀ x ∈ l, x = PVal.val 0) := by
  intro l
  induction l with
  | nil => intro _ a _; exact ⟨a, rfl, le_refl a, fun _ x hx => by simp at hx⟩
  | cons x t ih =>
    intro hall a ha
    obtain ⟨q, hq, hq0⟩ := hall x (List.mem_cons_self x t)
    have ht : ∀ y ∈ t, ∃ q, y = PVal.val q ∧ 0 ≤ q := fun y hy =>
      hall y (List.mem_cons_of_mem x hy)
    obtain ⟨s, hs, hle, hzero⟩ := ih ht (a + q) (by linarith)
    refine ⟨s, by simpa [hq, padd] using hs, by linarith, fun hsa => ?_⟩
    have hqz : q = 0 := by linarith
    intro y hy
    rcases List.mem_cons.mp hy with rfl | hy
    · rw [hq, hqz]
    · exact hzero (by linarith) y hy

lemma foldl_padd_zeros :
    ∀ (l : List PVal), (∀ x ∈ l, x = PVal.val 0) →
      ∀ a : ℚ, l.foldl padd (PVal.val a) = PVal.val a := by
  intro l
  induction l with
  | nil => intro _ a; rfl
  | cons x t ih =>
    intro hall a
    have hx : x = PVal.val 0 := hall x (List.mem_cons_self x t)
    have ht : ∀ y ∈ t, y = PVal.val 0 := fun y hy =>
      hall y (List.mem_cons_of_mem x hy)
    simp [hx, padd, ih ht]

lemma pdiff_getElem_succ (xs : List ℚ) (k : Nat) (a b : ℚ)
    (ha : xs[k]? = some a) (hb : xs[k + 1]? = some b) :
    (pdiff xs)[k + 1]? = some (PVal.val (b - a)) := by
  cases xs with
  | nil => simp at ha
  | cons x t =>
    simp only [pdiff, List.getElem?_cons_succ]
    have htk : t[k]? = some b := by
      rw [← List.getElem?_cons_succ (a := x)]
      exact hb
    simp [List.getElem?_zipWith, ha, htk]

lemma pdiff_entry_val_or_nan (xs : List ℚ) (j : Nat) (x : PVal)
    (h : (pdiff xs)[j]? = some x) : x = PVal.nan ∨ ∃ q, x = PVal.val q := by
  cases xs with
  | nil => simp [pdiff] at h
  | cons c t =>
    cases j with
    | zero =>
      simp only [pdiff, List.getElem?_cons_zero, Option.some_inj] at h
      exact Or.inl h.symm
    | succ k =>
      simp only [pdiff, List.getElem?_cons_succ, List.getElem?_zipWith] at h
      cases hck : (c :: t)[k]? with
      | none => rw [hck] at h; simp at h
      | some a =>
        cases htk : t[k]? with
        | none => rw [hck, htk] at h; simp at h
        | some b =>
          rw [hck, htk] at h
          simp only [Option.some_inj] at h
          exact Or.inr ⟨b - a, h.symm⟩

lemma pdiff_entry_succ_val (xs : List ℚ) (k : Nat) (x : PVal)
    (h : (pdiff xs)[k + 1]? = some x) : ∃ q, x = PVal.val q := by
  rcases pdiff_entry_val_or_nan xs (k + 1) x h with hn | hv
  · exfalso
    cases xs with
    | nil => simp [pdiff] at h
    | cons c t =>
      simp only [pdiff, List.getElem?_cons_succ, List.getElem?_zipWith] at h
      cases hck : (c :: t)[k]? with
      | none => rw [hck] at h; simp at h
      | some a =>
        cases htk : t[k]? with
        | none => rw [hck, htk] at h; simp at h
        | some b =>
          rw [hck, htk] at h
          simp only [Option.some_inj] at h
          rw [← h] at hn
          exact PVal.noConfusion hn
  · exact hv

lemma window_entry_getElem (l : List PVal) (m : Nat) (x : PVal)
    (hx : x ∈ (l.drop m).take 14) :
    ∃ k, k < 14 ∧ l[m + k]? = some x := by
  obtain ⟨k, hk⟩ := List.mem_iff_getElem?.mp hx
  rw [List.getElem?_take] at hk
  by_cases hk14 : k < 14
  · rw [if_pos hk14, List.getElem?_drop] at hk
    exact ⟨k, hk14, hk⟩
  · rw [if_neg hk14] at hk
    exact absurd hk (by simp)

lemma gains_window_nonneg (closes : List ℚ) (m : Nat) (x : PVal)
    (hx : x ∈ (((pdiff closes).map
        (fun d => if pvalPos d then d else PVal.val 0)).drop m).take 14) :
    ∃ q, x = PVal.val q ∧ 0 ≤ q := by
  obtain ⟨k, _, hk⟩ := window_entry_getElem _ m x hx
  rw [List.getElem?_map] at hk
  cases hdd : (pdiff closes)[m + k]? with
  | none => rw [hdd] at hk; simp at hk
  | some dd =>
    rw [hdd] at hk
    simp only [Option.map_some', Option.some_inj] at hk
    rcases pdiff_entry_val_or_nan closes (m + k) dd hdd with rfl | ⟨q, rfl⟩
    · exact ⟨0, by simp [← hk, pvalPos], le_refl 0⟩
    · by_cases hq : 0 < q
      · exact ⟨q, by simp [← hk, pvalPos, hq], le_of_lt hq⟩
      · exact ⟨0, by simp [← hk, pvalPos, hq], le_refl 0⟩

lemma losses_window_nonneg (closes : List ℚ) (m : Nat) (x : PVal)
    (hx : x ∈ ((((pdiff closes).map
        (fun d => if pvalNeg d then d else PVal.val 0)).map pneg).drop
          m).take 14) :
    ∃ q, x = PVal.val q ∧ 0 ≤ q := by
  obtain ⟨k, _, hk⟩ := window_entry_getElem _ m x hx
  rw [List.getElem?_map, List.getElem?_map] at hk
  cases hdd : (pdiff closes)[m + k]? with
  | none => rw [hdd] at hk; simp at hk
  | some dd =>
    rw [hdd] at hk
    simp only [Option.map_some', Option.some_inj] at hk
    rcases pdiff_entry_val_or_nan closes (m + k) dd hdd with rfl | ⟨q, rfl⟩
    · exact ⟨0, by simp [← hk, pvalNeg, pneg], le_refl 0⟩
    · by_cases hq : q < 0
      · refine ⟨-q, by simp [← hk, pvalNeg, hq, pneg], by linarith⟩
      · exact ⟨0, by simp [← hk, pvalNeg, hq, pneg], le_refl 0⟩

lemma calculate_rsi_cell (closes : List ℚ) (i : Nat) (hi : 13 ≤ i)
    (hlen : i < closes.length) :
    ∃ sg sl : ℚ,
      ((((pdiff closes).map (fun d => if pvalPos d then d else PVal.val 0)).drop
          (i + 1 - 14)).take 14).foldl padd (PVal.val 0) = PVal.val sg ∧
      (((((pdiff closes).map (fun d => if pvalNeg d then d else PVal.val 0)).map
          pneg).drop (i + 1 - 14)).take 14).foldl padd (PVal.val 0) =
        PVal.val sl ∧
      0 ≤ sg ∧ 0 ≤ sl ∧
      (sg ≤ 0 → ∀ x ∈ (((pdiff closes).map
          (fun d => if pvalPos d then d else PVal.val 0)).drop
            (i + 1 - 14)).take 14, x = PVal.val 0) ∧
      (sl ≤ 0 → ∀ x ∈ ((((pdiff closes).map
          (fun d => if pvalNeg d then d else PVal.val 0)).map pneg).drop
            (i + 1 - 14)).take 14, x = PVal.val 0) ∧
      (calculate_rsi closes 14)[i]? = some (rsiOf (sg / 14) (sl / 14)) := by
  obtain ⟨sg, hsg, hsgge, hsgz⟩ := foldl_padd_nonneg _
    (fun x hx => gains_window_nonneg closes (i + 1 - 14) x hx) 0 (le_refl 0)
  obtain ⟨sl, hsl, hslge, hslz⟩ := foldl_padd_nonneg _
    (fun x hx => losses_window_nonneg closes (i + 1 - 14) x hx) 0 (le_refl 0)
  have hglen : (((pdiff closes).map
      (fun d => if pvalPos d then d else PVal.val 0))).length = closes.length := by
    simp [length_pdiff]
  have hllen : ((((pdiff closes).map
      (fun d => if pvalNeg d then d else PVal.val 0)).map pneg)).length =
        closes.length := by
    simp [length_pdiff]
  have hg : (rollingMean 14 ((pdiff closes).map
      (fun d => if pvalPos d then d else PVal.val 0)))[i]? =
        some (pdiv (PVal.val sg) (PVal.val (14 : Nat))) := by
    rw [rollingMean_getElem 14 _ i (by rw [hglen]; exact hlen)]
    rw [if_neg (by omega : ¬ i + 1 < 14), hsg]
  have hl : (rollingMean 14 (((pdiff closes).map
      (fun d => if pvalNeg d then d else PVal.val 0)).map pneg))[i]? =
        some (pdiv (PVal.val sl) (PVal.val (14 : Nat))) := by
    rw [rollingMean_getElem 14 _ i (by rw [hllen]; exact hlen)]
    rw [if_neg (by omega : ¬ i + 1 < 14), hsl]
  have h14 : ((14 : Nat) : ℚ) ≠ 0 := by norm_num
  have hgv : pdiv (PVal.val sg) (PVal.val ((14 : Nat) : ℚ)) =
      PVal.val (sg / 14) := by
    simp [pdiv, h14]
  have hlv : pdiv (PVal.val sl) (PVal.val ((14 : Nat) : ℚ)) =
      PVal.val (sl / 14) := by
    simp [pdiv, h14]
  refine ⟨sg, sl, hsg, hsl, hsgge, hslge, hsgz, hslz, ?_⟩
  simp only [calculate_rsi, List.getElem?_map, List.getElem?_zipWith, hg, hl]
  rw [hgv, hlv]
  rfl

lemma rsiOf_lb_pos (ga lb : ℚ) (hga : 0 ≤ ga) (hlb : 0 < lb) :
    ∃ q, rsiOf ga lb = PVal.val q := by
  have h1 : lb ≠ 0 := ne_of_gt hlb
  have hr : 0 ≤ ga / lb := div_nonneg hga (le_of_lt hlb)
  have h2 : (1 : ℚ) + ga / lb ≠ 0 := by positivity
  unfold rsiOf
  rw [show pdiv (PVal.val ga) (PVal.val lb) = PVal.val (ga / lb) from by
    simp [pdiv, h1]]
  rw [show padd (PVal.val 1) (PVal.val (ga / lb)) =
    PVal.val (1 + ga / lb) from rfl]
  rw [show pdiv (PVal.val 100) (PVal.val (1 + ga / lb)) =
    PVal.val (100 / (1 + ga / lb)) from by simp [pdiv, h2]]
  exact ⟨100 + -(100 / (1 + ga / lb)), rfl⟩

lemma rsiOf_ga_pos_lb_zero (ga : ℚ) (hga : 0 < ga) :
    rsiOf ga 0 = PVal.val 100 := by
  unfold rsiOf
  rw [show pdiv (PVal.val ga) (PVal.val 0) = PVal.inf from by
    simp [pdiv, ne_of_gt hga, hga]]
  rw [show padd (PVal.val 1) PVal.inf = PVal.inf from rfl]
  rw [show pdiv (PVal.val 100) PVal.inf = PVal.val 0 from rfl]
  show PVal.val (100 + -0) = PVal.val 100
  norm_num

lemma rsiOf_zero_lb_pos (lb : ℚ) (hlb : 0 < lb) : rsiOf 0 lb = PVal.val 0 := by
  have h1 : lb ≠ 0 := ne_of_gt hlb
  unfold rsiOf
  rw [show pdiv (PVal.val 0) (PVal.val lb) = PVal.val (0 / lb) from by
    simp [pdiv, h1]]
  rw [zero_div]
  rw [show padd (PVal.val 1) (PVal.val 0) = PVal.val (1 + 0) from rfl, add_zero]
  rw [show pdiv (PVal.val 100) (PVal.val 1) = PVal.val (100 / 1) from by
    norm_num [pdiv]]
  show PVal.val (100 + -(100 / 1)) = PVal.val 0
  norm_num

lemma rsiOf_zero_zero : rsiOf 0 0 = PVal.nan := by
  unfold rsiOf
  rw [show pdiv (PVal.val 0) (PVal.val 0) = PVal.nan from by simp [pdiv]]
  rfl

lemma rsiOf_nan_inverse (sg sl : ℚ) (hsg : 0 ≤ sg) (hsl : 0 ≤ sl)
    (h : rsiOf (sg / 14) (sl / 14) = PVal.nan) : sg = 0 ∧ sl = 0 := by
  rcases lt_or_eq_of_le hsl with hslpos | hsleq
  · obtain ⟨q, hq⟩ := rsiOf_lb_pos (sg / 14) (sl / 14)
      (by positivity) (by positivity)
    rw [hq] at h
    exact absurd h (by simp)
  · rcases lt_or_eq_of_le hsg with hsgpos | hsgeq
    · rw [← hsleq, zero_div] at h
      rw [rsiOf_ga_pos_lb_zero (sg / 14) (by positivity)] at h
      exact absurd h (by simp)
    · exact ⟨hsgeq.symm, hsleq.symm⟩

lemma pdiff_getElem_zero (xs : List ℚ) (h : xs ≠ []) :
    (pdiff xs)[0]? = some PVal.nan := by
  cases xs with
  | nil => exact absurd rfl h
  | cons c t => simp [pdiff]

lemma pdiff_getElem_succ' (xs : List ℚ) (k : Nat) (h : k + 1 < xs.length) :
    (pdiff xs)[k + 1]? =
      some (PVal.val (xs[k + 1] - xs[k])) :=
  pdiff_getElem_succ xs k _ _ (List.getElem?_eq_getElem (by omega))
    (List.getElem?_eq_getElem h)

lemma chain'_lt_delta_pos (closes : List ℚ)
    (hchain : List.Chain' (· < ·) closes) (k : Nat)
    (h : k + 1 < closes.length) :
    0 < closes[k + 1] - closes[k] := by
  have hc := List.chain'_iff_get.mp hchain k (by omega)
  simp only [List.get_eq_getElem] at hc
  linarith

lemma chain'_gt_delta_neg (closes : List ℚ)
    (hchain : List.Chain' (· > ·) closes) (k : Nat)
    (h : k + 1 < closes.length) :
    closes[k + 1] - closes[k] < 0 := by
  have hc := List.chain'_iff_get.mp hchain k (by omega)
  simp only [List.get_eq_getElem] at hc
  linarith

lemma losses_window_all_zero_of_inc (closes : List ℚ)
    (hchain : List.Chain' (· < ·) closes) (m : Nat) :
    ∀ x ∈ ((((pdiff closes).map
        (fun d => if pvalNeg d then d else PVal.val 0)).map pneg).drop
          m).take 14, x = PVal.val 0 := by
  intro x hx
  obtain ⟨k, _, hk⟩ := window_entry_getElem _ m x hx
  rw [List.getElem?_map, List.getElem?_map] at hk
  cases hdd : (pdiff closes)[m + k]? with
  | none => rw [hdd] at hk; simp at hk
  | some dd =>
    rw [hdd] at hk
    simp only [Option.map_some', Option.some_inj] at hk
    cases hmk : m + k with
    | zero =>
      rw [hmk] at hdd
      have hne : closes ≠ [] := by
        intro hnil
        rw [hnil] at hdd
        simp [pdiff] at hdd
      rw [pdiff_getElem_zero closes hne] at hdd
      have hddn : dd = PVal.nan := (Option.some_inj.mp hdd).symm
      rw [← hk, hddn]
      show pneg (if pvalNeg PVal.nan then PVal.nan else PVal.val 0) = PVal.val 0
      norm_num [pvalNeg, pneg]
    | succ j =>
      rw [hmk] at hdd
      have hjlen : j + 1 < closes.length := by
        obtain ⟨hlt, -⟩ := List.getElem?_eq_some.mp hdd
        have hpl := length_pdiff closes
        omega
      rw [pdiff_getElem_succ' closes j hjlen] at hdd
      have hddv : dd = PVal.val (closes[j + 1] - closes[j]) :=
        (Option.some_inj.mp hdd).symm
      have hpos := chain'_lt_delta_pos closes hchain j hjlen
      rw [← hk, hddv]
      have hneg : pvalNeg (PVal.val (closes[j + 1] -
          closes[j])) = false := by
        simp [pvalNeg]
        linarith
      rw [if_neg (by simp [hneg])]
      show PVal.val (-0) = PVal.val 0
      norm_num

lemma gains_window_all_zero_of_dec (closes : List ℚ)
    (hchain : List.Chain' (· > ·) closes) (m : Nat) :
    ∀ x ∈ (((pdiff closes).map
        (fun d => if pvalPos d then d else PVal.val 0)).drop m).take 14,
      x = PVal.val 0 := by
  intro x hx
  obtain ⟨k, _, hk⟩ := window_entry_getElem _ m x hx
  rw [List.getElem?_map] at hk
  cases hdd : (pdiff closes)[m + k]? with
  | none => rw [hdd] at hk; simp at hk
  | some dd =>
    rw [hdd] at hk
    simp only [Option.map_some', Option.some_inj] at hk
    cases hmk : m + k with
    | zero =>
      rw [hmk] at hdd
      have hne : closes ≠ [] := by
        intro hnil
        rw [hnil] at hdd
        simp [pdiff] at hdd
      rw [pdiff_getElem_zero closes hne] at hdd
      have hddn : dd = PVal.nan := (Option.some_inj.mp hdd).symm
      rw [← hk, hddn]
      show (if pvalPos PVal.nan then PVal.nan else PVal.val 0) = PVal.val 0
      norm_num [pvalPos]
    | succ j =>
      rw [hmk] at hdd
      have hjlen : j + 1 < closes.length := by
        obtain ⟨hlt, -⟩ := List.getElem?_eq_some.mp hdd
        have hpl := length_pdiff closes
        omega
      rw [pdiff_getElem_succ' closes j hjlen] at hdd
      have hddv : dd = PVal.val (closes[j + 1] - closes[j]) :=
        (Option.some_inj.mp hdd).symm
      have hneg := chain'_gt_delta_neg closes hchain j hjlen
      rw [← hk, hddv]
      have hpos : pvalPos (PVal.val (closes[j + 1] -
          closes[j])) = false := by
        simp [pvalPos]
        linarith
      rw [if_neg (by simp [hpos])]

lemma gains_window_pos_entry_of_inc (closes : List ℚ)
    (hchain : List.Chain' (· < ·) closes) (i : Nat) (hi : 13 ≤ i)
    (hlen : i < closes.length) :
    ∃ q, 0 < q ∧ PVal.val q ∈ (((pdiff closes).map
        (fun d => if pvalPos d then d else PVal.val 0)).drop
          (i + 1 - 14)).take 14 := by
  have hi1 : i - 1 + 1 = i := by omega
  have hip : i - 1 + 1 < closes.length := by omega
  have hpos := chain'_lt_delta_pos closes hchain (i - 1) hip
  have hidx1 : (pdiff closes)[i - 1 + 1]? = (pdiff closes)[i]? := by rw [hi1]
  have hpd : (pdiff closes)[i]? =
      some (PVal.val (closes[i - 1 + 1] - closes[i - 1])) :=
    hidx1.symm.trans (pdiff_getElem_succ' closes (i - 1) hip)
  have hG : ((pdiff closes).map
      (fun d => if pvalPos d then d else PVal.val 0))[i]? =
        some (PVal.val (closes[i - 1 + 1] - closes[i - 1])) := by
    rw [List.getElem?_map, hpd]
    simp [pvalPos, hpos]
  have hidx : (i + 1 - 14) + 13 = i := by omega
  have hidxw : ((pdiff closes).map
      (fun d => if pvalPos d then d else PVal.val 0))[(i + 1 - 14) + 13]? =
        ((pdiff closes).map
      (fun d => if pvalPos d then d else PVal.val 0))[i]? := by rw [hidx]
  have hwin : ((((pdiff closes).map
      (fun d => if pvalPos d then d else PVal.val 0)).drop
        (i + 1 - 14)).take 14)[13]? =
      some (PVal.val (closes[i - 1 + 1] - closes[i - 1])) := by
    rw [List.getElem?_take, if_pos (by omega : (13 : Nat) < 14),
      List.getElem?_drop]
    exact hidxw.trans hG
  exact ⟨_, hpos, List.getElem?_mem hwin⟩

lemma losses_window_pos_entry_of_dec (closes : List ℚ)
    (hchain : List.Chain' (· > ·) closes) (i : Nat) (hi : 13 ≤ i)
    (hlen : i < closes.length) :
    ∃ q, 0 < q ∧ PVal.val q ∈ ((((pdiff closes).map
        (fun d => if pvalNeg d then d else PVal.val 0)).map pneg).drop
          (i + 1 - 14)).take 14 := by
  have hi1 : i - 1 + 1 = i := by omega
  have hip : i - 1 + 1 < closes.length := by omega
  have hneg := chain'_gt_delta_neg closes hchain (i - 1) hip
  have hidx1 : (pdiff closes)[i - 1 + 1]? = (pdiff closes)[i]? := by rw [hi1]
  have hpd : (pdiff closes)[i]? =
      some (PVal.val (closes[i - 1 + 1] - closes[i - 1])) :=
    hidx1.symm.trans (pdiff_getElem_succ' closes (i - 1) hip)
  have hL : (((pdiff closes).map
      (fun d => if pvalNeg d then d else PVal.val 0)).map pneg)[i]? =
        some (PVal.val (-(closes[i - 1 + 1] - closes[i - 1]))) := by
    rw [List.getElem?_map, List.getElem?_map, hpd]
    have hvn : pvalNeg (PVal.val (closes[i - 1 + 1] -
        closes[i - 1])) = true := by
      simp [pvalNeg]
      linarith
    simp only [Option.map_some', Option.some_inj]
    rw [if_pos hvn]
    rfl
  have hidx : (i + 1 - 14) + 13 = i := by omega
  have hidxw : (((pdiff closes).map
      (fun d => if pvalNeg d then d else PVal.val 0)).map
        pneg)[(i + 1 - 14) + 13]? =
      (((pdiff closes).map
      (fun d => if pvalNeg d then d else PVal.val 0)).map pneg)[i]? := by
    rw [hidx]
  have hwin : (((((pdiff closes).map
      (fun d => if pvalNeg d then d else PVal.val 0)).map pneg).drop
        (i + 1 - 14)).take 14)[13]? =
      some (PVal.val (-(closes[i - 1 + 1] - closes[i - 1]))) := by
    rw [List.getElem?_take, if_pos (by omega : (13 : Nat) < 14),
      List.getElem?_drop]
    exact hidxw.trans hL
  exact ⟨_, by linarith, List.getElem?_mem hwin⟩

lemma rollingMean_val_at (w : Nat) (closes : List ℚ) (i : Nat)
    (hw : ¬ i + 1 < w) (hw0 : 0 < w) (hlen : i < closes.length) :
    ∃ q, (rollingMean w (closes.map PVal.val))[i]? = some (PVal.val q) := by
  have hml : (closes.map PVal.val).length = closes.length := by simp
  rw [rollingMean_getElem w _ i (by rw [hml]; exact hlen), if_neg hw]
  have hall : ∀ x ∈ ((closes.map PVal.val).drop (i + 1 - w)).take w,
      ∃ q, x = PVal.val q := by
    intro x hx
    have hx1 : x ∈ closes.map PVal.val :=
      List.mem_of_mem_drop (List.mem_of_mem_take hx)
    obtain ⟨c, _, hc⟩ := List.mem_map.mp hx1
    exact ⟨c, hc.symm⟩
  obtain ⟨s, hs⟩ := foldl_padd_allval _ hall 0
  rw [hs]
  have hwne : ((w : Nat) : ℚ) ≠ 0 := Nat.cast_ne_zero.mpr (by omega)
  exact ⟨s / w, by simp [pdiv, hwne]⟩

/-- C7: at every position with a complete 14-window, `calculate_rsi` of a
strictly increasing price series is exactly 100, and of a strictly
decreasing one exactly 0 (gains or losses vanish, so `rs` is `+inf` or `0`
and `100 - 100/(1+rs)` collapses to the corresponding limit). -/
theorem rsi_monotone_limits (closes : List ℚ) (i : Nat) (hi : 13 ≤ i)
    (hlen : i < closes.length) :
    (List.Chain' (· < ·) closes →
      (calculate_rsi closes 14)[i]? = some (PVal.val 100)) ∧
    (List.Chain' (· > ·) closes →
      (calculate_rsi closes 14)[i]? = some (PVal.val 0)) := by
  obtain ⟨sg, sl, hsg, hsl, hsgge, hslge, hsgz, hslz, hcell⟩ :=
    calculate_rsi_cell closes i hi hlen
  constructor
  · intro hchain
    have hallz := losses_window_all_zero_of_inc closes hchain (i + 1 - 14)
    have hfold := foldl_padd_zeros _ hallz 0
    have hsl0 : sl = 0 := by
      have hvv : PVal.val sl = PVal.val 0 := hsl.symm.trans hfold
      exact (PVal.val.injEq _ _).mp hvv
    have hsgpos : 0 < sg := by
      rcases lt_or_eq_of_le hsgge with h | h
      · exact h
      · exfalso
        obtain ⟨q, hq, hmem⟩ :=
          gains_window_pos_entry_of_inc closes hchain i hi hlen
        have hz := hsgz (le_of_eq h.symm) _ hmem
        rw [PVal.val.injEq] at hz
        linarith
    rw [hcell, hsl0, zero_div, rsiOf_ga_pos_lb_zero _ (by positivity)]
  · intro hchain
    have hallz := gains_window_all_zero_of_dec closes hchain (i + 1 - 14)
    have hfold := foldl_padd_zeros _ hallz 0
    have hsg0 : sg = 0 := by
      have hvv : PVal.val sg = PVal.val 0 := hsg.symm.trans hfold
      exact (PVal.val.injEq _ _).mp hvv
    have hslpos : 0 < sl := by
      rcases lt_or_eq_of_le hslge with h | h
      · exact h
      · exfalso
        obtain ⟨q, hq, hmem⟩ :=
          losses_window_pos_entry_of_dec closes hchain i hi hlen
        have hz := hslz (le_of_eq h.symm) _ hmem
        rw [PVal.val.injEq] at hz
        linarith
    rw [hcell, hsg0, zero_div, rsiOf_zero_lb_pos _ (by positivity)]

/-- Witness for C7 at the first complete-window position of two concrete
monotone histories. -/
theorem rsi_monotone_limits_witness :
    (calculate_rsi incCloses 14)[13]? = some (PVal.val 100) ∧
    (calculate_rsi decCloses 14)[13]? = some (PVal.val 0) :=
  ⟨(rsi_monotone_limits incCloses 13 (by decide) (by decide)).1
      (by norm_num [incCloses, List.chain'_cons]),
   (rsi_monotone_limits decCloses 13 (by decide) (by decide)).2
      (by norm_num [decCloses, List.chain'_cons])⟩

lemma pdiff_replicate (n : Nat) (c : ℚ) (j : Nat) (x : PVal)
    (h : (pdiff (List.replicate n c))[j]? = some x) :
    x = PVal.nan ∨ x = PVal.val 0 := by
  cases j with
  | zero =>
    cases n with
    | zero => simp [pdiff] at h
    | succ n' =>
      rw [pdiff_getElem_zero _ (by simp)] at h
      exact Or.inl (Option.some_inj.mp h).symm
  | succ k =>
    have hk : k + 1 < (List.replicate n c).length := by
      obtain ⟨hlt, -⟩ := List.getElem?_eq_some.mp h
      have := length_pdiff (List.replicate n c)
      omega
    rw [pdiff_getElem_succ' _ k hk] at h
    refine Or.inr ?_
    have hx : x = PVal.val ((List.replicate n c)[k + 1] -
        (List.replicate n c)[k]) := (Option.some_inj.mp h).symm
    rw [hx]
    simp [List.getElem_replicate]

lemma gains_window_zero_flat (n : Nat) (c : ℚ) (m : Nat) :
    ∀ x ∈ (((pdiff (List.replicate n c)).map
        (fun d => if pvalPos d then d else PVal.val 0)).drop m).take 14,
      x = PVal.val 0 := by
  intro x hx
  obtain ⟨k, _, hk⟩ := window_entry_getElem _ m x hx
  rw [List.getElem?_map] at hk
  cases hdd : (pdiff (List.replicate n c))[m + k]? with
  | none => rw [hdd] at hk; simp at hk
  | some dd =>
    rw [hdd] at hk
    simp only [Option.map_some', Option.some_inj] at hk
    rcases pdiff_replicate n c (m + k) dd hdd with rfl | rfl
    · rw [← hk]
      show (if pvalPos PVal.nan then PVal.nan else PVal.val 0) = PVal.val 0
      norm_num [pvalPos]
    · rw [← hk]
      show (if pvalPos (PVal.val 0) then PVal.val 0 else PVal.val 0) = PVal.val 0
      norm_num

lemma losses_window_zero_flat (n : Nat) (c : ℚ) (m : Nat) :
    ∀ x ∈ ((((pdiff (List.replicate n c)).map
        (fun d => if pvalNeg d then d else PVal.val 0)).map pneg).drop
          m).take 14, x = PVal.val 0 := by
  intro x hx
  obtain ⟨k, _, hk⟩ := window_entry_getElem _ m x hx
  rw [List.getElem?_map, List.getElem?_map] at hk
  cases hdd : (pdiff (List.replicate n c))[m + k]? with
  | none => rw [hdd] at hk; simp at hk
  | some dd =>
    rw [hdd] at hk
    simp only [Option.map_some', Option.some_inj] at hk
    rcases pdiff_replicate n c (m + k) dd hdd with rfl | rfl
    · rw [← hk]
      show pneg (if pvalNeg PVal.nan then PVal.nan else PVal.val 0) = PVal.val 0
      norm_num [pvalNeg, pneg]
    · rw [← hk]
      show pneg (if pvalNeg (PVal.val 0) then PVal.val 0 else PVal.val 0) =
        PVal.val 0
      norm_num [pvalNeg, pneg]

/-- Counterexample to C6 as stated: the fetched history has `days + 50` rows
(51 rows, `days = 1`), yet the single displayed RSI row is NaN — on a flat
series the 14-window gains and losses both average to zero and `rs = 0/0` is
NaN, inside the displayed window. -/
theorem chart_rsi_nan_on_flat_history :
    clampDays 1 + 50 ≤ flatCloses.length ∧
    (get_chart flatCloses 1).rsi14[0]? = some PVal.nan := by
  constructor
  · decide
  · rw [show (get_chart flatCloses 1).rsi14 =
      tailRows (clampDays 1) (calculate_rsi flatCloses 14) from rfl]
    rw [tailRows, List.getElem?_drop]
    have hcd : clampDays 1 = 1 := by decide
    have hfl : flatCloses.length = 51 := by decide
    have hlen : (calculate_rsi flatCloses 14).length = 51 := by
      rw [length_calculate_rsi, hfl]
    have hflt : (50 : Nat) < flatCloses.length := by omega
    obtain ⟨sg, sl, hsg, hsl, _, _, _, _, hcell⟩ :=
      calculate_rsi_cell flatCloses 50 (by omega) hflt
    have hidx : (calculate_rsi flatCloses 14).length - clampDays 1 + 0 = 50 := by
      omega
    rw [hidx, hcell]
    have hsg0 : sg = 0 := by
      have hz := foldl_padd_zeros _ (gains_window_zero_flat 51 1 (50 + 1 - 14)) 0
      have hvv : PVal.val sg = PVal.val 0 := hsg.symm.trans hz
      exact (PVal.val.injEq _ _).mp hvv
    have hsl0 : sl = 0 := by
      have hz := foldl_padd_zeros _ (losses_window_zero_flat 51 1 (50 + 1 - 14)) 0
      have hvv : PVal.val sl = PVal.val 0 := hsl.symm.trans hz
      exact (PVal.val.injEq _ _).mp hvv
    rw [hsg0, hsl0, zero_div, rsiOf_zero_zero]

/-- C6 (amended): when the fetched history has at least `days + 50` rows,
every displayed SMA-20 and SMA-50 value is defined (never NaN), and a
displayed RSI value can be NaN only when all 14 deltas feeding its window
are zero (flat prices, `rs = 0/0`) — never from warm-up truncation. -/
theorem chart_display_window_indicators (closes : List ℚ) (daysArg : Int)
    (hlen : clampDays daysArg + 50 ≤ closes.length) :
    (∀ x ∈ (get_chart closes daysArg).sma20, x ≠ PVal.nan) ∧
    (∀ x ∈ (get_chart closes daysArg).sma50, x ≠ PVal.nan) ∧
    (∀ j : Nat, (get_chart closes daysArg).rsi14[j]? = some PVal.nan →
      ∀ dd ∈ ((pdiff closes).drop
          (closes.length - clampDays daysArg + j - 13)).take 14,
        dd = PVal.val 0) := by
  refine ⟨?_, ?_, ?_⟩
  · intro x hx
    rw [show (get_chart closes daysArg).sma20 = tailRows (clampDays daysArg)
      (rollingMean 20 (closes.map PVal.val)) from rfl] at hx
    obtain ⟨j, hj⟩ := List.mem_iff_getElem?.mp hx
    rw [tailRows, List.getElem?_drop] at hj
    have hrl : (rollingMean 20 (closes.map PVal.val)).length = closes.length := by
      rw [length_rollingMean, List.length_map]
    rw [hrl] at hj
    obtain ⟨hlt, -⟩ := List.getElem?_eq_some.mp hj
    rw [hrl] at hlt
    obtain ⟨q, hq⟩ := rollingMean_val_at 20 closes
      (closes.length - clampDays daysArg + j) (by omega) (by norm_num)
      (by omega)
    have hvv : some x = some (PVal.val q) := hj.symm.trans hq
    rw [Option.some_inj.mp hvv]
    simp
  · intro x hx
    rw [show (get_chart closes daysArg).sma50 = tailRows (clampDays daysArg)
      (rollingMean 50 (closes.map PVal.val)) from rfl] at hx
    obtain ⟨j, hj⟩ := List.mem_iff_getElem?.mp hx
    rw [tailRows, List.getElem?_drop] at hj
    have hrl : (rollingMean 50 (closes.map PVal.val)).length = closes.length := by
      rw [length_rollingMean, List.length_map]
    rw [hrl] at hj
    obtain ⟨hlt, -⟩ := List.getElem?_eq_some.mp hj
    rw [hrl] at hlt
    obtain ⟨q, hq⟩ := rollingMean_val_at 50 closes
      (closes.length - clampDays daysArg + j) (by omega) (by norm_num)
      (by omega)
    have hvv : some x = some (PVal.val q) := hj.symm.trans hq
    rw [Option.some_inj.mp hvv]
    simp
  · intro j hj
    rw [show (get_chart closes daysArg).rsi14 = tailRows (clampDays daysArg)
      (calculate_rsi closes 14) from rfl] at hj
    rw [tailRows, List.getElem?_drop] at hj
    have hrl : (calculate_rsi closes 14).length = closes.length :=
      length_calculate_rsi closes 14
    rw [hrl] at hj
    obtain ⟨hlt, -⟩ := List.getElem?_eq_some.mp hj
    rw [hrl] at hlt
    obtain ⟨sg, sl, hsg, hsl, hsgge, hslge, hsgz, hslz, hcell⟩ :=
      calculate_rsi_cell closes (closes.length - clampDays daysArg + j)
        (by omega) (by omega)
    have hnan : rsiOf (sg / 14) (sl / 14) = PVal.nan :=
      Option.some_inj.mp (hcell.symm.trans hj)
    obtain ⟨hsg0, hsl0⟩ := rsiOf_nan_inverse sg sl hsgge hslge hnan
    have hgz := hsgz (le_of_eq hsg0)
    have hlz := hslz (le_of_eq hsl0)
    intro dd hdd
    have hm : closes.length - clampDays daysArg + j - 13 =
        closes.length - clampDays daysArg + j + 1 - 14 := by omega
    obtain ⟨k, hk14, hk⟩ := window_entry_getElem _ _ dd hdd
    have hk' : (pdiff closes)[(closes.length - clampDays daysArg + j + 1 - 14)
        + k]? = some dd := by
      rw [← hm]
      exact hk
    obtain ⟨k', hkk⟩ : ∃ k',
        (closes.length - clampDays daysArg + j + 1 - 14) + k = k' + 1 :=
      ⟨(closes.length - clampDays daysArg + j + 1 - 14) + k - 1, by omega⟩
    have hk'' : (pdiff closes)[k' + 1]? = some dd := by
      rw [← hkk]
      exact hk'
    obtain ⟨q, rfl⟩ := pdiff_entry_succ_val closes k' dd hk''
    have hGk : ((pdiff closes).map
        (fun d => if pvalPos d then d else PVal.val 0))[(closes.length -
          clampDays daysArg + j + 1 - 14) + k]? =
        some (if pvalPos (PVal.val q) then PVal.val q else PVal.val 0) := by
      rw [List.getElem?_map, hk']
      rfl
    have hGwin : ((((pdiff closes).map
        (fun d => if pvalPos d then d else PVal.val 0)).drop
          (closes.length - clampDays daysArg + j + 1 - 14)).take 14)[k]? =
        some (if pvalPos (PVal.val q) then PVal.val q else PVal.val 0) := by
      rw [List.getElem?_take, if_pos hk14, List.getElem?_drop]
      exact hGk
    have hG0 := hgz _ (List.getElem?_mem hGwin)
    have hLk : (((pdiff closes).map
        (fun d => if pvalNeg d then d else PVal.val 0)).map
          pneg)[(closes.length - clampDays daysArg + j + 1 - 14) + k]? =
        some (pneg (if pvalNeg (PVal.val q) then PVal.val q else PVal.val 0)) := by
      rw [List.getElem?_map, List.getElem?_map, hk']
      rfl
    have hLwin : (((((pdiff closes).map
        (fun d => if pvalNeg d then d else PVal.val 0)).map pneg).drop
          (closes.length - clampDays daysArg + j + 1 - 14)).take 14)[k]? =
        some (pneg (if pvalNeg (PVal.val q) then PVal.val q else PVal.val 0)) := by
      rw [List.getElem?_take, if_pos hk14, List.getElem?_drop]
      exact hLk
    have hL0 := hlz _ (List.getElem?_mem hLwin)
    by_cases hq : 0 < q
    · exfalso
      rw [if_pos (by simp [pvalPos, hq])] at hG0
      have := (PVal.val.injEq _ _).mp hG0
      linarith
    · by_cases hq2 : q < 0
      · exfalso
        rw [if_pos (by simp [pvalNeg, hq2])] at hL0
        have : -q = 0 := (PVal.val.injEq _ _).mp hL0
        linarith
      · have hq0 : q = 0 := by linarith
        rw [hq0]

/-- Witness for the amended C6 at the flat 51-candle history with a 1-day
display window. -/
theorem chart_display_window_indicators_witness :
    clampDays 1 + 50 ≤ flatCloses.length ∧
    ((∀ x ∈ (get_chart flatCloses 1).sma20, x ≠ PVal.nan) ∧
     (∀ x ∈ (get_chart flatCloses 1).sma50, x ≠ PVal.nan) ∧
     (∀ j : Nat, (get_chart flatCloses 1).rsi14[j]? = some PVal.nan →
       ∀ dd ∈ ((pdiff flatCloses).drop
           (flatCloses.length - clampDays 1 + j - 13)).take 14,
         dd = PVal.val 0)) :=
  ⟨by decide, chart_display_window_indicators flatCloses 1 (by decide)⟩

lemma collectTriggered_ge (prices : String → Option ℚ) (sendOk : Nat → Bool) :
    ∀ (l : List Alert) (k i : Nat),
      i ∈ collectTriggered prices sendOk k l → k ≤ i := by
  intro l
  induction l with
  | nil => intro k i h; simp [collectTriggered] at h
  | cons a rest ih =>
    intro k i h
    simp only [collectTriggered] at h
    cases hpa : prices a.symbol with
    | none =>
      simp only [hpa] at h
      exact Nat.le_of_succ_le (ih (k + 1) i h)
    | some p =>
      simp only [hpa] at h
      by_cases hc : (triggered p a && sendOk k) = true
      · rw [if_pos hc] at h
        rcases List.mem_cons.mp h with rfl | h
        · exact Nat.le_refl i
        · exact Nat.le_of_succ_le (ih (k + 1) i h)
      · rw [if_neg hc] at h
        exact Nat.le_of_succ_le (ih (k + 1) i h)

lemma collectTriggered_mem_of (prices : String → Option ℚ) (sendOk : Nat → Bool) :
    ∀ (l : List Alert) (k i : Nat) (h : i < l.length) (p : ℚ),
      prices (l.get ⟨i, h⟩).symbol = some p →
      triggered p (l.get ⟨i, h⟩) = true → sendOk (k + i) = true →
      k + i ∈ collectTriggered prices sendOk k l := by
  intro l
  induction l with
  | nil => intro k i h; simp at h
  | cons a rest ih =>
    intro k i h p hp ht hs
    cases i with
    | zero =>
      simp only [List.get] at hp ht
      simp only [collectTriggered, hp]
      rw [if_pos (by simp [ht]; simpa using hs)]
      simp
    | succ j =>
      have hj : j < rest.length := by simpa using h
      have hget : (a :: rest).get ⟨j + 1, h⟩ = rest.get ⟨j, hj⟩ := rfl
      rw [hget] at hp ht
      have hkj : k + (j + 1) = (k + 1) + j := by omega
      rw [hkj] at hs ⊢
      have htail := ih (k + 1) j hj p hp ht hs
      simp only [collectTriggered]
      cases hpa : prices a.symbol with
      | none => simp only [hpa]; exact htail
      | some q =>
        simp only [hpa]
        by_cases hc : (triggered q a && sendOk k) = true
        · rw [if_pos hc]; exact List.mem_cons_of_mem _ htail
        · rw [if_neg hc]; exact htail

lemma collectTriggered_triggered_of_mem
    (prices : String → Option ℚ) (sendOk : Nat → Bool) :
    ∀ (l : List Alert) (k i : Nat) (h : i < l.length) (p : ℚ),
      prices (l.get ⟨i, h⟩).symbol = some p →
      k + i ∈ collectTriggered prices sendOk k l →
      triggered p (l.get ⟨i, h⟩) = true := by
  intro l
  induction l with
  | nil => intro k i h; simp at h
  | cons a rest ih =>
    intro k i h p hp hmem
    cases i with
    | zero =>
      simp only [List.get] at hp ⊢
      simp only [collectTriggered, hp] at hmem
      by_cases hc : (triggered p a && sendOk k) = true
      · exact (Bool.and_eq_true _ _ |>.mp hc).1
      · rw [if_neg hc] at hmem
        have := collectTriggered_ge prices sendOk rest (k + 1) (k + 0) hmem
        omega
    | succ j =>
      have hj : j < rest.length := by simpa using h
      have hget : (a :: rest).get ⟨j + 1, h⟩ = rest.get ⟨j, hj⟩ := rfl
      rw [hget] at hp ⊢
      have hkj : k + (j + 1) = (k + 1) + j := by omega
      simp only [collectTriggered] at hmem
      have htail : (k + 1) + j ∈ collectTriggered prices sendOk (k + 1) rest := by
        cases hpa : prices a.symbol with
        | none => simp only [hpa] at hmem; rw [← hkj]; exact hmem
        | some q =>
          simp only [hpa] at hmem
          by_cases hc : (triggered q a && sendOk k) = true
          · rw [if_pos hc] at hmem
            rcases List.mem_cons.mp hmem with habs | hmem
            · omega
            · rw [← hkj]; exact hmem
          · rw [if_neg hc] at hmem; rw [← hkj]; exact hmem
      exact ih (k + 1) j hj p hp htail

lemma triggered_iff (p : ℚ) (a : Alert) :
    triggered p a = true ↔
      (a.condition = ">" ∧ p > a.price) ∨ (a.condition = "<" ∧ p < a.price) := by
  simp [triggered, Bool.or_eq_true, Bool.and_eq_true, beq_iff_eq, decide_eq_true_iff]

/-- C1: in a checker run, an alert whose symbol has a fetched current price is
triggered (notified and queued for removal, sends succeeding) if and only if
its condition is `'>'` and the price is strictly above its threshold, or its
condition is `'<'` and the price is strictly below it. -/
theorem checker_triggers_iff_condition
    (l : List Alert) (prices : String → Option ℚ) (sendOk : Nat → Bool)
    (i : Nat) (h : i < l.length) (p : ℚ)
    (hp : prices (l.get ⟨i, h⟩).symbol = some p) (hs : sendOk i = true) :
    i ∈ collectTriggered prices sendOk 0 l ↔
      (((l.get ⟨i, h⟩).condition = ">" ∧ p > (l.get ⟨i, h⟩).price) ∨
       ((l.get ⟨i, h⟩).condition = "<" ∧ p < (l.get ⟨i, h⟩).price)) := by
  constructor
  · intro hmem
    have : (0 : Nat) + i ∈ collectTriggered prices sendOk 0 l := by simpa using hmem
    exact (triggered_iff p _).mp
      (collectTriggered_triggered_of_mem prices sendOk l 0 i h p hp this)
  · intro hcond
    have ht : triggered p (l.get ⟨i, h⟩) = true := (triggered_iff p _).mpr hcond
    have hs' : sendOk (0 + i) = true := by simpa using hs
    have := collectTriggered_mem_of prices sendOk l 0 i h p hp ht hs'
    simpa using this

/-- Witness for C1: with current price 70000 and the single alert
`{BTCUSDT, >, 65000}`, position 0 is notified and queued for removal. -/
theorem checker_triggers_iff_condition_witness :
    0 ∈ collectTriggered examplePrices (fun _ => true) 0 [exampleAlert] := by
  have h : 0 < [exampleAlert].length := by decide
  exact (checker_triggers_iff_condition [exampleAlert] examplePrices
      (fun _ => true) 0 h 70000 rfl rfl).mpr
    (Or.inl ⟨rfl, by norm_num [exampleAlert]⟩)

/-- C2: removing elements one at a time in strictly descending position order,
all positions in range, yields exactly the list with the records at those
positions deleted and the rest kept in their original relative order. -/
theorem remove_many_descending_exact
    (l : List Alert) (idxs : List Nat)
    (hsort : idxs.Pairwise (· > ·)) (hbound : ∀ i ∈ idxs, i < l.length) :
    removeDescending l idxs = keepNotAt l idxs :=
  removeDescending_eq_keepNotAt idxs l hsort hbound

/-- Witness for C2 at a concrete 4-element list with positions {2, 0}. -/
theorem remove_many_descending_exact_witness :
    removeDescending
        [⟨"A", ">", 1⟩, ⟨"B", "<", 2⟩, ⟨"C", ">", 3⟩, ⟨"D", "<", 4⟩]
        [2, 0] =
      keepNotAt
        [⟨"A", ">", 1⟩, ⟨"B", "<", 2⟩, ⟨"C", ">", 3⟩, ⟨"D", "<", 4⟩]
        [2, 0] :=
  remove_many_descending_exact _ [2, 0] (by decide) (by decide)
